import Mathlib

/-!
Verification development for the `stomp` Go package (a STOMP message
broker).  The definitions below shallowly embed the code of
`server.go` together with the components the server delegates to
(frame codec, connection session, destination router, transaction
manager), which are described by the package's specification.
Machine integers are modelled as `Nat` (no overflow is relevant here),
byte streams as `List Char`, and fallible operations return
`Option`/`Except`.
-/

namespace Stomp

/-- Destinations that start with this prefix are considered to be queues;
destinations that do not are considered to be topics (`server.go`). -/
def QueuePrefix : String := "/queue"

/-- Default address for listening for connections (`server.go`). -/
def DefaultAddr : String := ":61613"

/-- Default maximum bytes for the header part of STOMP frames (`server.go`). -/
def DefaultMaxHeaderBytes : Nat := 1 <<< 12

/-- Default maximum bytes for the body part of STOMP frames (`server.go`). -/
def DefaultMaxBodyBytes : Nat := 1 <<< 20

/-- One second, in nanoseconds, mirroring Go's `time.Second`. -/
def timeSecond : Nat := 1000000000

/-- One minute, in nanoseconds, mirroring Go's `time.Minute`. -/
def timeMinute : Nat := 60 * timeSecond

/-- Default read timeout for heart-beat (`server.go`): `time.Minute`. -/
def DefaultHeartBeat : Nat := timeMinute

/-- Interface for authenticating STOMP clients (`server.go`): a single
operation from a login and a passcode to a boolean. -/
def Authenticator : Type := String → String → Bool

/-- A message held by queue storage: an id and a body. -/
structure Msg where
  id : Nat
  body : List Char
deriving DecidableEq, Repr

/-- Modelled from the spec: the pluggable `QueueStorage` capability offers
append-message, pop-next-pending and remove-by-id operations over a
per-queue state (a list of messages); the concrete implementations are in
files of the repository that are not under `src/`. -/
structure QueueStorage where
  append : List Msg → Msg → List Msg
  popNext : List Msg → Option (Msg × List Msg)
  removeById : List Msg → Nat → List Msg

/-- Modelled from the spec: the default non-durable in-memory queue storage
(FIFO list of messages). -/
def inMemoryQueueStorage : QueueStorage where
  append l m := l ++ [m]
  popNext l := match l with
    | [] => none
    | m :: rest => some (m, rest)
  removeById l i := l.filter (fun m => m.id ≠ i)

/-- A Server defines parameters for running a STOMP server (`server.go`).
Go's zero values are the empty string, `none` and `0`. -/
structure Server where
  Addr : String
  Authenticator : Option Stomp.Authenticator
  QueueStorage : Option Stomp.QueueStorage
  HeartBeat : Nat
  MaxHeaderBytes : Nat
  MaxBodyBytes : Nat

/-- The zero value of the `Server` struct, as produced by `&Server{}`. -/
def zeroServer : Server :=
  { Addr := ""
    Authenticator := none
    QueueStorage := none
    HeartBeat := 0
    MaxHeaderBytes := 0
    MaxBodyBytes := 0 }

/-- The listen address actually used by `Server.ListenAndServe`
(`server.go`): `DefaultAddr` when `Addr` is blank. -/
def effectiveAddr (s : Server) : String :=
  if s.Addr = "" then DefaultAddr else s.Addr

/-- Modelled from the spec: the header-size ceiling actually enforced by the
frame reader (in files not under `src/`), `DefaultMaxHeaderBytes` when the
configured value is zero, per the `Server.MaxHeaderBytes` doc comment. -/
def effectiveMaxHeaderBytes (s : Server) : Nat :=
  if s.MaxHeaderBytes = 0 then DefaultMaxHeaderBytes else s.MaxHeaderBytes

/-- Modelled from the spec: the body-size ceiling actually enforced by the
frame reader (in files not under `src/`), `DefaultMaxBodyBytes` when the
configured value is zero, per the `Server.MaxBodyBytes` doc comment. -/
def effectiveMaxBodyBytes (s : Server) : Nat :=
  if s.MaxBodyBytes = 0 then DefaultMaxBodyBytes else s.MaxBodyBytes

/-- Modelled from the spec: the preferred heart-beat interval actually used
(in files not under `src/`), `DefaultHeartBeat` when the configured value
is zero, per the `Server.HeartBeat` doc comment. -/
def effectiveHeartBeat (s : Server) : Nat :=
  if s.HeartBeat = 0 then DefaultHeartBeat else s.HeartBeat

/-- Modelled from the spec: when `Server.Authenticator` is nil no
authentication is performed (per its doc comment), otherwise the supplied
authenticator decides. -/
def effectiveAuthenticate (a : Option Authenticator)
    (login passcode : String) : Bool :=
  match a with
  | none => true
  | some f => f login passcode

/-- Modelled from the spec: when `Server.QueueStorage` is nil, the
in-memory queue implementation is used (per its doc comment). -/
def effectiveQueueStorage (q : Option QueueStorage) : QueueStorage :=
  match q with
  | none => inMemoryQueueStorage
  | some impl => impl

/-- One event seen by the accept loop: an accepted connection or a failure
of the listener. -/
inductive AcceptEvent (C E : Type) where
  | conn (c : C)
  | fail (e : E)

/-- Modelled from the spec: the request processor's accept loop (in files
not under `src/`) accepts connections, spawning a service thread for each,
until the listener fails; the failure halts acceptance and is returned to
the caller.  The result is the list of connections for which service
threads were established, and the error (if any) that stopped the loop. -/
def serveLoop {C E : Type} : List (AcceptEvent C E) → List C × Option E
  | [] => ([], none)
  | .conn c :: rest =>
      let r := serveLoop rest
      (c :: r.1, r.2)
  | .fail e :: _ => ([], some e)

/-- `Server.Serve` (`server.go`): builds a request processor for the server
and delegates to its accept loop.  The processor is abstracted as a
function from the server's parameters and the listener to the result. -/
def Server.Serve {L R : Type} (proc : Server → L → R) (s : Server) (l : L) : R :=
  proc s l

/-- `Server.ListenAndServe` (`server.go`): listens on `s.Addr` (or
`DefaultAddr` when blank) and then calls `Serve`; a listen failure is
returned to the caller. -/
def Server.ListenAndServe {L E R : Type} (listen : String → Except E L)
    (proc : Server → L → R) (s : Server) : Except E R :=
  let addr := if s.Addr = "" then DefaultAddr else s.Addr
  match listen addr with
  | .error err => .error err
  | .ok l => .ok (s.Serve proc l)

/-- Package-level `ListenAndServe` (`server.go`): builds `&Server{Addr: addr}`
and calls its `ListenAndServe` method. -/
def ListenAndServe {L E R : Type} (listen : String → Except E L)
    (proc : Server → L → R) (addr : String) : Except E R :=
  let s : Server := { zeroServer with Addr := addr }
  s.ListenAndServe listen proc

/-- Package-level `Serve` (`server.go`): builds `&Server{}` and calls its
`Serve` method. -/
def Serve {L R : Type} (proc : Server → L → R) (l : L) : R :=
  let s : Server := zeroServer
  s.Serve proc l

/-- The two kinds of destination. -/
inductive DestinationKind where
  | queue
  | topic
deriving DecidableEq, Repr

/-- Modelled from the spec: the destination-kind rule (applied in files not
under `src/`) — a destination whose name starts with `QueuePrefix` is a
queue, every other destination is a topic, per the comment on
`QueuePrefix` in `server.go`. -/
def destinationKind (name : String) : DestinationKind :=
  if QueuePrefix.isPrefixOf name then .queue else .topic

/-! ## Connection session (CONNECT handling)

The per-connection protocol state machine is in repository files not under
`src/`; the fragment relevant to authentication is modelled from the spec. -/

/-- States of the per-connection protocol state machine. -/
inductive SessionState where
  | awaitingConnect
  | connected
  | disconnecting
  | closed
deriving DecidableEq, Repr

/-- Client frames, reduced to what CONNECT handling distinguishes. -/
inductive ClientFrame where
  | connect (login passcode : String)
  | disconnect
  | other
deriving DecidableEq, Repr

/-- Frames the server can write back on a connection. -/
inductive ServerFrame where
  | connectedFrame
  | errorFrame
  | receiptFrame
deriving DecidableEq, Repr

/-- Modelled from the spec: one step of the connection session (in files not
under `src/`).  In `AwaitingConnect` only a CONNECT is accepted; the
authenticator is invoked with the supplied login and passcode; on success
the server responds CONNECTED and enters `Connected`, on failure it
responds ERROR and the connection is closed.  Any frame other than CONNECT
in `AwaitingConnect` is a protocol violation (ERROR, close).  A closed
connection processes nothing and writes nothing. -/
def sessionStep (auth : String → String → Bool) :
    SessionState → ClientFrame → SessionState × List ServerFrame
  | .awaitingConnect, .connect login passcode =>
      if auth login passcode then (.connected, [.connectedFrame])
      else (.closed, [.errorFrame])
  | .awaitingConnect, _ => (.closed, [.errorFrame])
  | .connected, .disconnect => (.closed, [.receiptFrame])
  | .connected, _ => (.connected, [])
  | .disconnecting, _ => (.closed, [])
  | .closed, _ => (.closed, [])

/-- Runs the session over a list of inbound frames, collecting every frame
the server writes to the connection. -/
def sessionRun (auth : String → String → Bool) :
    SessionState → List ClientFrame → SessionState × List ServerFrame
  | st, [] => (st, [])
  | st, f :: fs =>
      let step := sessionStep auth st f
      let rest := sessionRun auth step.1 fs
      (rest.1, step.2 ++ rest.2)

/-! ## Queue dispatch

The destination router lives in repository files not under `src/`; queue
dispatch is modelled from the spec. -/

/-- State of one queue destination: its registered subscriptions (by id, in
registration order), the round-robin cursor, and messages that are queued
because no subscription was available. -/
structure QueueState where
  subs : List Nat
  rr : Nat
  pending : List Nat
deriving DecidableEq, Repr

/-- Modelled from the spec: routing one SEND to a queue (in files not under
`src/`).  The message is dispatched immediately to the next subscription in
round-robin order among the currently active subscriptions; with no
subscription available the message remains queued.  Subscriptions here are
in `auto` ack mode, so every active subscription is always available (the
claimed property ignores NACK-triggered redelivery).  The second component
is the delivery performed: message paired with the receiving
subscription. -/
def queueSend (q : QueueState) (m : Nat) : QueueState × List (Nat × Nat) :=
  match q.subs with
  | [] => ({ q with pending := q.pending ++ [m] }, [])
  | _ :: _ =>
      let target := q.subs.getD (q.rr % q.subs.length) 0
      ({ q with rr := q.rr + 1 }, [(m, target)])

/-- Processes a sequence of SENDs against a queue, collecting the delivery
log in order. -/
def queueRun (q : QueueState) : List Nat → QueueState × List (Nat × Nat)
  | [] => (q, [])
  | m :: ms =>
      let step := queueSend q m
      let rest := queueRun step.1 ms
      (rest.1, step.2 ++ rest.2)

/-! ## Transactions

The transaction manager lives in repository files not under `src/`; it is
modelled from the spec: BEGIN opens an empty buffer (duplicate ids fail),
SEND/ACK/NACK naming an open transaction are buffered instead of applied
to the Router, COMMIT applies the buffer in submission order and discards
the transaction, ABORT discards without applying. -/

/-- Broker state as a transaction sees it: the Router's observable state is
the ordered log of actions it has applied; open transactions map their id
to the buffered actions. -/
structure BrokerState (A : Type) where
  router : List A
  txs : List (Nat × List A)
deriving DecidableEq, Repr

/-- Events driving the transaction manager: an action applied directly, and
BEGIN / buffered action / COMMIT / ABORT for a transaction id. -/
inductive TxEvent (A : Type) where
  | direct (a : A)
  | beginTx (t : Nat)
  | act (t : Nat) (a : A)
  | commitTx (t : Nat)
  | abortTx (t : Nat)
deriving DecidableEq, Repr

/-- The buffer of the open transaction `t`, when `t` is open. -/
def lookupTx {A : Type} (t : Nat) : List (Nat × List A) → Option (List A)
  | [] => none
  | p :: rest => if p.1 = t then some p.2 else lookupTx t rest

/-- Removes transaction `t` from the open-transaction table. -/
def eraseTx {A : Type} (t : Nat) : List (Nat × List A) → List (Nat × List A)
  | [] => []
  | p :: rest => if p.1 = t then eraseTx t rest else p :: eraseTx t rest

/-- Appends `a` to the buffer of transaction `t`. -/
def appendTx {A : Type} (t : Nat) (a : A) :
    List (Nat × List A) → List (Nat × List A)
  | [] => []
  | p :: rest =>
      (if p.1 = t then (p.1, p.2 ++ [a]) else p) :: appendTx t a rest

/-- Modelled from the spec: one step of the transaction manager (in files
not under `src/`).  A failing step (duplicate BEGIN, unknown id on
act/commit/abort) leaves the state unchanged; the connection-fatal error it
raises is not modelled here. -/
def txStep {A : Type} (s : BrokerState A) : TxEvent A → BrokerState A
  | .direct a => { s with router := s.router ++ [a] }
  | .beginTx t =>
      match lookupTx t s.txs with
      | some _ => s
      | none => { s with txs := s.txs ++ [(t, [])] }
  | .act t a =>
      match lookupTx t s.txs with
      | some _ => { s with txs := appendTx t a s.txs }
      | none => s
  | .commitTx t =>
      match lookupTx t s.txs with
      | some buf => { router := s.router ++ buf, txs := eraseTx t s.txs }
      | none => s
  | .abortTx t =>
      match lookupTx t s.txs with
      | some _ => { s with txs := eraseTx t s.txs }
      | none => s

/-- Runs the transaction manager over a list of events. -/
def txRun {A : Type} (s : BrokerState A) : List (TxEvent A) → BrokerState A
  | [] => s
  | e :: es => txRun (txStep s e) es

/-- Whether an event refers to transaction `t`. -/
def touchesTx {A : Type} (t : Nat) : TxEvent A → Bool
  | .direct _ => false
  | .beginTx u => u = t
  | .act u _ => u = t
  | .commitTx u => u = t
  | .abortTx u => u = t

/-- Removes every event referring to transaction `t`. -/
def purgeTx {A : Type} (t : Nat) (evs : List (TxEvent A)) : List (TxEvent A) :=
  evs.filter (fun e => ¬ touchesTx t e)

/-! ## Frame codec

The frame codec lives in repository files not under `src/`; it is modelled
from the spec.  A byte stream is a `List Char`; `decode` reads one frame or
one heartbeat token from the front of the stream and returns the remainder,
enforcing the configured header-byte and body-byte ceilings with
`frameTooLarge` and rejecting malformed input (unknown command, missing
terminator, unparsable header line, content-length mismatch) with
`malformedFrame`.  The header section spans the command line, the header
lines and the terminating blank line.  `encode` serializes command, headers
(escaping backslash, colon, newline and carriage return in header names and
values), a blank line, the body and the NUL frame terminator; the
content-length header is not synthesized (headers are written exactly as
given, so a decoded content-length header is re-emitted as is). -/

/-- Errors of the frame decoder. -/
inductive DecodeErr where
  | frameTooLarge
  | malformedFrame
deriving DecidableEq, Repr

/-- A decoded STOMP frame: command, headers in insertion order, body. -/
structure Frame where
  command : List Char
  headers : List (List Char × List Char)
  body : List Char
deriving DecidableEq, Repr

/-- What one read from the stream yields: a heartbeat token or a frame. -/
inductive Decoded where
  | heartbeat
  | frame (f : Frame)
deriving DecidableEq, Repr

/-- The NUL byte that terminates a frame. -/
def nulChar : Char := Char.ofNat 0

/-- The STOMP commands the codec recognizes; anything else is an unknown
command and malformed. -/
def stompCommands : List (List Char) :=
  ["CONNECT".toList, "STOMP".toList, "CONNECTED".toList, "SEND".toList,
   "SUBSCRIBE".toList, "UNSUBSCRIBE".toList, "BEGIN".toList, "COMMIT".toList,
   "ABORT".toList, "ACK".toList, "NACK".toList, "DISCONNECT".toList,
   "MESSAGE".toList, "RECEIPT".toList, "ERROR".toList]

/-- Reads one `\n`-terminated line, spending one unit of the header budget
per consumed byte (the newline included) and failing with `frameTooLarge`
as soon as the budget is exhausted with input still pending — before the
rest of the line is buffered.  Returns the line, the remaining input and
the remaining budget. -/
def takeLineB : Nat → List Char → Except DecodeErr (List Char × List Char × Nat)
  | _, [] => .error .malformedFrame
  | 0, _ :: _ => .error .frameTooLarge
  | b + 1, c :: cs =>
      if c = '\n' then .ok ([], cs, b)
      else
        match takeLineB b cs with
        | .error e => .error e
        | .ok (l, r, b') => .ok (c :: l, r, b')

/-- Decomposition of a successful budgeted line read. -/
theorem takeLineB_ok_inv {b : Nat} {i l r : List Char} {b' : Nat}
    (h : takeLineB b i = .ok (l, r, b')) :
    i = l ++ '\n' :: r ∧ '\n' ∉ l ∧ l.length < b ∧ b' = b - (l.length + 1) := by
  induction i generalizing b l r b' with
  | nil => simp [takeLineB] at h
  | cons c cs ih =>
    match b with
    | 0 => simp [takeLineB] at h
    | b + 1 =>
      by_cases hc : c = '\n'
      · subst hc
        simp [takeLineB] at h
        obtain ⟨hl, hr, hb⟩ := h
        subst hl; subst hr; subst hb
        simp
      · simp [takeLineB, hc] at h
        match hrec : takeLineB b cs with
        | .error e => rw [hrec] at h; simp at h
        | .ok (l₀, r₀, b₀) =>
          rw [hrec] at h
          simp at h
          obtain ⟨hl, hr, hb⟩ := h
          obtain ⟨hdec, hnl, hlen, hb'⟩ := ih hrec
          subst hl; subst hr; subst hb
          refine ⟨by simp [hdec], ?_, ?_, ?_⟩
          · simp [hnl]
            exact fun he => hc he.symm
          · simpa using Nat.succ_lt_succ hlen
          · simpa using hb'

/-- A successful line read consumes at least one byte. -/
theorem takeLineB_rest_length {b : Nat} {i l r : List Char} {b' : Nat}
    (h : takeLineB b i = .ok (l, r, b')) : r.length < i.length := by
  obtain ⟨hdec, -, -, -⟩ := takeLineB_ok_inv h
  subst hdec
  simp
  omega

/-- Worker for `collectRawLines`: `acc` holds the current line read so
far, in reverse; one unit of the header budget is spent per consumed byte
and exhausting it with input pending fails with `frameTooLarge` at once. -/
def collectAux : Nat → List Char → List Char →
    Except DecodeErr (List (List Char) × List Char)
  | _, _, [] => .error .malformedFrame
  | 0, _, _ :: _ => .error .frameTooLarge
  | b + 1, acc, c :: cs =>
      if c = '\n' then
        if acc = [] then .ok ([], cs)
        else
          match collectAux b [] cs with
          | .error e => .error e
          | .ok (ls, r) => .ok (acc.reverse :: ls, r)
      else collectAux b (c :: acc) cs

/-- Collects the raw lines of the head of a frame (command line and header
lines) up to and including the terminating blank line, under the header
budget.  No line is parsed before the whole section has arrived within
budget, so exhausting the budget always surfaces as `frameTooLarge`. -/
def collectRawLines (budget : Nat) (input : List Char) :
    Except DecodeErr (List (List Char) × List Char) :=
  collectAux budget [] input

/-- The worker read line by line: it behaves as one budgeted line read
(the accumulator completing the line) followed by a fresh collection. -/
theorem collectAux_eq (b : Nat) (acc input : List Char) :
    collectAux b acc input =
      match takeLineB b input with
      | .error e => .error e
      | .ok (l, r, b') =>
          if acc.reverse ++ l = [] then .ok ([], r)
          else
            match collectAux b' [] r with
            | .error e => .error e
            | .ok (ls, r') => .ok ((acc.reverse ++ l) :: ls, r') := by
  induction input generalizing b acc with
  | nil => simp [collectAux, takeLineB]
  | cons c cs ih =>
    match b with
    | 0 => simp [collectAux, takeLineB]
    | b + 1 =>
      by_cases hc : c = '\n'
      · subst hc
        by_cases ha : acc = []
        · subst ha
          simp [collectAux, takeLineB]
        · simp [collectAux, takeLineB, ha]
      · simp only [collectAux, takeLineB, if_neg hc]
        rw [ih b (c :: acc)]
        cases htl : takeLineB b cs with
        | error e => simp
        | ok p =>
          obtain ⟨l, r, b'⟩ := p
          cases hca : collectAux b' [] r with
          | error e => simp
          | ok q =>
            obtain ⟨ls, r'⟩ := q
            simp [List.append_assoc]

/-- The recursion equation for `collectRawLines`. -/
theorem collectRawLines_eq (b : Nat) (input : List Char) :
    collectRawLines b input =
      match takeLineB b input with
      | .error e => .error e
      | .ok (line, rest, b') =>
          if line = [] then .ok ([], rest)
          else
            match collectRawLines b' rest with
            | .error e => .error e
            | .ok (ls, r) => .ok (line :: ls, r) := by
  unfold collectRawLines
  rw [collectAux_eq]
  cases htl : takeLineB b input with
  | error e => simp
  | ok p =>
    obtain ⟨l, r, b'⟩ := p
    simp

/-- Unescapes one escape-sequence character of a header value. -/
def unescapeChar (c : Char) : Option Char :=
  if c = 'n' then some '\n'
  else if c = 'c' then some ':'
  else if c = '\\' then some '\\'
  else if c = 'r' then some '\r'
  else none

/-- Undoes header escaping; a dangling or unknown escape is a parse
failure. -/
def unescape : List Char → Option (List Char)
  | [] => some []
  | c :: cs =>
      if c = '\\' then
        match cs with
        | [] => none
        | d :: cs' =>
            match unescapeChar d with
            | none => none
            | some u => (unescape cs').map (fun l => u :: l)
      else (unescape cs).map (fun l => c :: l)

/-- Escapes one character of a header name or value. -/
def escapeChar (c : Char) : List Char :=
  if c = '\\' then ['\\', '\\']
  else if c = '\n' then ['\\', 'n']
  else if c = ':' then ['\\', 'c']
  else if c = '\r' then ['\\', 'r']
  else [c]

/-- Escapes a header name or value. -/
def escape : List Char → List Char
  | [] => []
  | c :: cs => escapeChar c ++ escape cs

/-- Splits a raw header line at its first colon. -/
def splitAtColon : List Char → Option (List Char × List Char)
  | [] => none
  | c :: cs =>
      if c = ':' then some ([], cs)
      else
        match splitAtColon cs with
        | none => none
        | some (k, v) => some (c :: k, v)

/-- Parses one raw header line into an unescaped name/value pair. -/
def parseRawHeader (line : List Char) : Option (List Char × List Char) :=
  match splitAtColon line with
  | none => none
  | some (k, v) =>
      match unescape k, unescape v with
      | some k', some v' => some (k', v')
      | _, _ => none

/-- Parses the raw header lines in order. -/
def parseRawHeaders : List (List Char) → Option (List (List Char × List Char))
  | [] => some []
  | l :: ls =>
      match parseRawHeader l, parseRawHeaders ls with
      | some kv, some rest => some (kv :: rest)
      | _, _ => none

/-- First occurrence of a repeated header wins. -/
def lookupHeader (k : List Char) :
    List (List Char × List Char) → Option (List Char)
  | [] => none
  | kv :: rest => if kv.1 = k then some kv.2 else lookupHeader k rest

/-- The header naming the declared content length. -/
def contentLengthKey : List Char := "content-length".toList

/-- Parses a decimal numeral. -/
def parseNatAux : List Char → Nat → Option Nat
  | [], acc => some acc
  | c :: cs, acc =>
      if c.isDigit then parseNatAux cs (acc * 10 + (c.toNat - 48))
      else none

/-- Parses a non-empty decimal numeral. -/
def parseNatSimple : List Char → Option Nat
  | [] => none
  | l => parseNatAux l 0

/-- Takes exactly `n` body bytes. -/
def takeExact : Nat → List Char → Option (List Char × List Char)
  | 0, l => some ([], l)
  | _ + 1, [] => none
  | n + 1, c :: cs =>
      match takeExact n cs with
      | none => none
      | some (l, r) => some (c :: l, r)

/-- Reads a body with no declared content length: everything up to the NUL
terminator, spending one unit of the body budget per body byte and failing
with `frameTooLarge` as soon as a byte beyond the budget arrives — before
the rest of the body is buffered. -/
def takeBodyB : Nat → List Char → Except DecodeErr (List Char × List Char)
  | _, [] => .error .malformedFrame
  | 0, c :: cs =>
      if c = nulChar then .ok ([], cs) else .error .frameTooLarge
  | b + 1, c :: cs =>
      if c = nulChar then .ok ([], cs)
      else
        match takeBodyB b cs with
        | .error e => .error e
        | .ok (l, r) => .ok (c :: l, r)

/-- Reads the body section under the body budget: a declared content length
beyond the budget is rejected before any body byte is read; a declared
length within budget must be followed by exactly that many bytes and the
NUL terminator; with no declaration the body runs to the NUL terminator. -/
def decodeBody (maxB : Nat) (contentLen : Option Nat) (input : List Char) :
    Except DecodeErr (List Char × List Char) :=
  match contentLen with
  | some n =>
      if maxB < n then .error .frameTooLarge
      else
        match takeExact n input with
        | none => .error .malformedFrame
        | some (body, rest) =>
            match rest with
            | [] => .error .malformedFrame
            | c :: rest' =>
                if c = nulChar then .ok (body, rest')
                else .error .malformedFrame
  | none => takeBodyB maxB input

/-- Reads one frame or one heartbeat token from the front of the stream,
returning it with the unconsumed remainder of the stream. -/
def decode (maxH maxB : Nat) (input : List Char) :
    Except DecodeErr (Decoded × List Char) :=
  match input with
  | [] => .error .malformedFrame
  | c :: rest =>
      if c = '\n' then .ok (.heartbeat, rest)
      else
        match collectRawLines maxH input with
        | .error e => .error e
        | .ok (lines, afterHead) =>
            match lines with
            | [] => .error .malformedFrame
            | cmd :: hdrLines =>
                if cmd ∈ stompCommands then
                  match parseRawHeaders hdrLines with
                  | none => .error .malformedFrame
                  | some headers =>
                      match lookupHeader contentLengthKey headers with
                      | some v =>
                          match parseNatSimple v with
                          | none => .error .malformedFrame
                          | some n =>
                              match decodeBody maxB (some n) afterHead with
                              | .error e => .error e
                              | .ok (body, rest') =>
                                  .ok (.frame ⟨cmd, headers, body⟩, rest')
                      | none =>
                          match decodeBody maxB none afterHead with
                          | .error e => .error e
                          | .ok (body, rest') =>
                              .ok (.frame ⟨cmd, headers, body⟩, rest')
                else .error .malformedFrame

/-- Concatenates lines, each terminated by a newline. -/
def linesFlat : List (List Char) → List Char
  | [] => []
  | l :: ls => l ++ '\n' :: linesFlat ls

/-- The raw lines of the head of an encoded frame: the command line and one
escaped `name:value` line per header. -/
def headLines (command : List Char) (headers : List (List Char × List Char)) :
    List (List Char) :=
  command :: headers.map (fun kv => escape kv.1 ++ ':' :: escape kv.2)

/-- Size in bytes of an encoded head section: every line with its newline,
plus the terminating blank line. -/
def headBytes (lines : List (List Char)) : Nat :=
  (linesFlat lines).length + 1

/-- Serializes a frame: command line, escaped header lines, blank line,
body, NUL terminator. -/
def encode (f : Frame) : List Char :=
  linesFlat (headLines f.command f.headers) ++ '\n' :: (f.body ++ [nulChar])

/-- The byte size of the head section `decode` must accept to re-read an
encoded frame. -/
def encodedHeadBytes (f : Frame) : Nat :=
  headBytes (headLines f.command f.headers)

/-! ## Session lemmas -/

/-- A closed connection processes nothing and writes nothing. -/
theorem sessionRun_closed (auth : String → String → Bool)
    (fs : List ClientFrame) : sessionRun auth .closed fs = (.closed, []) := by
  induction fs with
  | nil => rfl
  | cons f fs ih => simp [sessionRun, sessionStep, ih]

/-! ## Queue lemmas -/

/-- Round-robin selection picks a registered subscription. -/
theorem getD_mod_mem (l : List Nat) (n d : Nat) (h : l ≠ []) :
    l.getD (n % l.length) d ∈ l := by
  have hlen : 0 < l.length := List.length_pos.mpr h
  have hlt : n % l.length < l.length := Nat.mod_lt _ hlen
  rw [List.getD_eq_getElem l d hlt]
  exact List.getElem_mem hlt

/-- Dispatch does not change the subscription set. -/
theorem queueSend_subs (q : QueueState) (m : Nat) :
    (queueSend q m).1.subs = q.subs := by
  unfold queueSend
  match h : q.subs with
  | [] => simp [h]
  | s :: ss => simp [h]

/-- With at least one active subscription, every SEND is dispatched to
exactly one registered subscription, and the delivery log lists the sent
messages in order. -/
theorem queueRun_log (q : QueueState) (msgs : List Nat) (h : q.subs ≠ []) :
    (queueRun q msgs).2.map Prod.fst = msgs
    ∧ ∀ d ∈ (queueRun q msgs).2, d.2 ∈ q.subs := by
  induction msgs generalizing q with
  | nil => simp [queueRun]
  | cons m ms ih =>
    obtain ⟨s, ss, hq⟩ : ∃ s ss, q.subs = s :: ss := by
      cases hqq : q.subs with
      | nil => exact absurd hqq h
      | cons a b => exact ⟨a, b, rfl⟩
    have hstep : queueSend q m
        = ({ q with rr := q.rr + 1 },
            [(m, q.subs.getD (q.rr % q.subs.length) 0)]) := by
      unfold queueSend
      rw [hq]
    have hsubs' : ({ q with rr := q.rr + 1 } : QueueState).subs = q.subs := rfl
    have hrec := ih { q with rr := q.rr + 1 } (by rw [hsubs']; exact h)
    constructor
    · simp only [queueRun, hstep]
      simp [hrec.1]
    · intro d hd
      simp only [queueRun, hstep] at hd
      rcases List.mem_append.mp hd with hd | hd
      · have hd' : d = (m, q.subs.getD (q.rr % q.subs.length) 0) := by
          simpa using hd
        rw [hd']
        exact getD_mod_mem q.subs q.rr 0 h
      · exact hrec.2 d hd

/-! ## Transaction lemmas -/

/-- Erasing an absent transaction is the identity. -/
theorem eraseTx_of_lookup_none {A : Type} {t : Nat} {txs : List (Nat × List A)}
    (h : lookupTx t txs = none) : eraseTx t txs = txs := by
  induction txs with
  | nil => rfl
  | cons p rest ih =>
    obtain ⟨k, buf⟩ := p
    by_cases hk : k = t
    · subst hk
      simp [lookupTx] at h
    · simp only [lookupTx] at h
      rw [if_neg hk] at h
      simp [eraseTx, hk, ih h]

/-- Erasure is idempotent. -/
theorem eraseTx_eraseTx {A : Type} (t : Nat) (txs : List (Nat × List A)) :
    eraseTx t (eraseTx t txs) = eraseTx t txs := by
  induction txs with
  | nil => rfl
  | cons p rest ih =>
    obtain ⟨k, buf⟩ := p
    by_cases hk : k = t
    · subst hk
      simp [eraseTx, ih]
    · simp [eraseTx, hk, ih]

/-- Erasures of distinct transactions commute. -/
theorem eraseTx_comm {A : Type} (t u : Nat) (txs : List (Nat × List A)) :
    eraseTx t (eraseTx u txs) = eraseTx u (eraseTx t txs) := by
  induction txs with
  | nil => rfl
  | cons p rest ih =>
    obtain ⟨k, buf⟩ := p
    by_cases hku : k = u
    · subst hku
      by_cases hkt : k = t
      · subst hkt
        simp [eraseTx, ih]
      · simp [eraseTx, hkt, ih]
    · by_cases hkt : k = t
      · subst hkt
        simp [eraseTx, hku, ih]
      · simp [eraseTx, hku, hkt, ih]

/-- Erasure distributes over appending new table entries. -/
theorem eraseTx_append {A : Type} (t : Nat) (xs ys : List (Nat × List A)) :
    eraseTx t (xs ++ ys) = eraseTx t xs ++ eraseTx t ys := by
  induction xs with
  | nil => rfl
  | cons p rest ih =>
    obtain ⟨k, buf⟩ := p
    by_cases hk : k = t
    · subst hk
      simp [eraseTx, ih]
    · simp [eraseTx, hk, ih]

/-- Looking up a transaction other than the erased one is unchanged. -/
theorem lookupTx_eraseTx_ne {A : Type} {t u : Nat} (hne : u ≠ t)
    (txs : List (Nat × List A)) :
    lookupTx u (eraseTx t txs) = lookupTx u txs := by
  induction txs with
  | nil => rfl
  | cons p rest ih =>
    obtain ⟨k, buf⟩ := p
    by_cases hkt : k = t
    · subst hkt
      simp [eraseTx, lookupTx, Ne.symm hne, ih]
    · by_cases hku : k = u
      · subst hku
        simp [eraseTx, lookupTx, hkt]
      · simp [eraseTx, lookupTx, hkt, hku, ih]

/-- Buffering into one transaction does not move another's buffer. -/
theorem lookupTx_appendTx_ne {A : Type} {t u : Nat} (hne : u ≠ t) (a : A)
    (txs : List (Nat × List A)) :
    lookupTx u (appendTx t a txs) = lookupTx u txs := by
  induction txs with
  | nil => rfl
  | cons p rest ih =>
    obtain ⟨k, buf⟩ := p
    by_cases hkt : k = t
    · subst hkt
      simp [appendTx, lookupTx, Ne.symm hne, ih]
    · by_cases hku : k = u
      · subst hku
        simp [appendTx, lookupTx, hkt]
      · simp [appendTx, lookupTx, hkt, hku, ih]

/-- Erasing one transaction commutes with buffering into another. -/
theorem eraseTx_appendTx_ne {A : Type} {t u : Nat} (hne : u ≠ t) (a : A)
    (txs : List (Nat × List A)) :
    eraseTx t (appendTx u a txs) = appendTx u a (eraseTx t txs) := by
  induction txs with
  | nil => rfl
  | cons p rest ih =>
    obtain ⟨k, buf⟩ := p
    by_cases hku : k = u
    · subst hku
      simp [appendTx, eraseTx, hne, ih]
    · by_cases hkt : k = t
      · subst hkt
        simp [appendTx, eraseTx, hku, ih]
      · simp [appendTx, eraseTx, hku, hkt, ih]

/-- Buffering into the erased transaction is invisible after erasure. -/
theorem eraseTx_appendTx_self {A : Type} (t : Nat) (a : A)
    (txs : List (Nat × List A)) :
    eraseTx t (appendTx t a txs) = eraseTx t txs := by
  induction txs with
  | nil => rfl
  | cons p rest ih =>
    obtain ⟨k, buf⟩ := p
    by_cases hk : k = t
    · subst hk
      simp [appendTx, eraseTx, ih]
    · simp [appendTx, eraseTx, hk, ih]

/-- One step that refers to `t` (and is not COMMIT of `t`) leaves the
router untouched and the transaction table unchanged off `t`. -/
theorem txStep_touch_rel {A : Type} {t : Nat} {s s' : BrokerState A}
    (e : TxEvent A) (hr : s.router = s'.router)
    (ht : eraseTx t s.txs = s'.txs) (htouch : touchesTx t e = true)
    (hnc : e ≠ TxEvent.commitTx t) :
    (txStep s e).router = s'.router ∧ eraseTx t (txStep s e).txs = s'.txs := by
  match e with
  | .direct a => simp [touchesTx] at htouch
  | .beginTx u =>
    have hut : u = t := by simpa [touchesTx] using htouch
    subst hut
    cases hl : lookupTx u s.txs with
    | some buf => exact ⟨by simp [txStep, hl, hr], by simp [txStep, hl, ht]⟩
    | none =>
      refine ⟨by simp [txStep, hl, hr], ?_⟩
      simp only [txStep, hl]
      rw [eraseTx_append, ht]
      simp [eraseTx]
  | .act u a =>
    have hut : u = t := by simpa [touchesTx] using htouch
    subst hut
    cases hl : lookupTx u s.txs with
    | some buf =>
      refine ⟨by simp [txStep, hl, hr], ?_⟩
      simp only [txStep, hl]
      rw [eraseTx_appendTx_self, ht]
    | none => exact ⟨by simp [txStep, hl, hr], by simp [txStep, hl, ht]⟩
  | .commitTx u =>
    have hut : u = t := by simpa [touchesTx] using htouch
    subst hut
    exact absurd rfl hnc
  | .abortTx u =>
    have hut : u = t := by simpa [touchesTx] using htouch
    subst hut
    cases hl : lookupTx u s.txs with
    | some buf =>
      refine ⟨by simp [txStep, hl, hr], ?_⟩
      simp only [txStep, hl]
      rw [eraseTx_eraseTx, ht]
    | none => exact ⟨by simp [txStep, hl, hr], by simp [txStep, hl, ht]⟩

/-- One step not referring to `t` advances two states that agree on the
router and agree on the table off `t` to states that still agree. -/
theorem txStep_same_rel {A : Type} {t : Nat} {s s' : BrokerState A}
    (e : TxEvent A) (hr : s.router = s'.router)
    (ht : eraseTx t s.txs = s'.txs) (htouch : ¬ touchesTx t e = true) :
    (txStep s e).router = (txStep s' e).router
    ∧ eraseTx t (txStep s e).txs = (txStep s' e).txs := by
  match e with
  | .direct a => exact ⟨by simp [txStep, hr], by simp [txStep, ht]⟩
  | .beginTx u =>
    have hut : u ≠ t := by simpa [touchesTx] using htouch
    have hlook : lookupTx u s'.txs = lookupTx u s.txs := by
      rw [← ht, lookupTx_eraseTx_ne hut]
    cases hl : lookupTx u s.txs with
    | some buf =>
      have hl' : lookupTx u s'.txs = some buf := hlook.trans hl
      exact ⟨by simp [txStep, hl, hl', hr], by simp [txStep, hl, hl', ht]⟩
    | none =>
      have hl' : lookupTx u s'.txs = none := hlook.trans hl
      refine ⟨by simp [txStep, hl, hl', hr], ?_⟩
      simp only [txStep, hl, hl']
      rw [eraseTx_append, ht]
      simp [eraseTx, hut]
  | .act u a =>
    have hut : u ≠ t := by simpa [touchesTx] using htouch
    have hlook : lookupTx u s'.txs = lookupTx u s.txs := by
      rw [← ht, lookupTx_eraseTx_ne hut]
    cases hl : lookupTx u s.txs with
    | some buf =>
      have hl' : lookupTx u s'.txs = some buf := hlook.trans hl
      refine ⟨by simp [txStep, hl, hl', hr], ?_⟩
      simp only [txStep, hl, hl']
      rw [eraseTx_appendTx_ne hut, ht]
    | none =>
      have hl' : lookupTx u s'.txs = none := hlook.trans hl
      exact ⟨by simp [txStep, hl, hl', hr], by simp [txStep, hl, hl', ht]⟩
  | .commitTx u =>
    have hut : u ≠ t := by simpa [touchesTx] using htouch
    have hlook : lookupTx u s'.txs = lookupTx u s.txs := by
      rw [← ht, lookupTx_eraseTx_ne hut]
    cases hl : lookupTx u s.txs with
    | some buf =>
      have hl' : lookupTx u s'.txs = some buf := hlook.trans hl
      refine ⟨by simp [txStep, hl, hl', hr], ?_⟩
      simp only [txStep, hl, hl']
      rw [eraseTx_comm, ht]
    | none =>
      have hl' : lookupTx u s'.txs = none := hlook.trans hl
      exact ⟨by simp [txStep, hl, hl', hr], by simp [txStep, hl, hl', ht]⟩
  | .abortTx u =>
    have hut : u ≠ t := by simpa [touchesTx] using htouch
    have hlook : lookupTx u s'.txs = lookupTx u s.txs := by
      rw [← ht, lookupTx_eraseTx_ne hut]
    cases hl : lookupTx u s.txs with
    | some buf =>
      have hl' : lookupTx u s'.txs = some buf := hlook.trans hl
      refine ⟨by simp [txStep, hl, hl', hr], ?_⟩
      simp only [txStep, hl, hl']
      rw [eraseTx_comm, ht]
    | none =>
      have hl' : lookupTx u s'.txs = none := hlook.trans hl
      exact ⟨by simp [txStep, hl, hl', hr], by simp [txStep, hl, hl', ht]⟩

/-- Running two states that agree on the router and agree on the table off
`t` through a trace that never commits `t` — with the `t` events dropped on
the second — keeps the routers equal. -/
theorem txRun_purge {A : Type} (t : Nat) (evs : List (TxEvent A))
    (s s' : BrokerState A) (hr : s.router = s'.router)
    (ht : eraseTx t s.txs = s'.txs)
    (hnc : ∀ e ∈ evs, e ≠ TxEvent.commitTx t) :
    (txRun s evs).router = (txRun s' (purgeTx t evs)).router := by
  induction evs generalizing s s' with
  | nil => simpa [txRun, purgeTx] using hr
  | cons e es ih =>
    have hnc' : ∀ x ∈ es, x ≠ TxEvent.commitTx t := fun x hx =>
      hnc x (List.mem_cons_of_mem _ hx)
    by_cases htouch : touchesTx t e = true
    · have hrel := txStep_touch_rel e hr ht htouch (hnc e (List.mem_cons_self e es))
      have hpurge : purgeTx t (e :: es) = purgeTx t es := by
        simp [purgeTx, htouch]
      rw [hpurge]
      show (txRun (txStep s e) es).router = _
      exact ih (txStep s e) s' hrel.1 hrel.2 hnc'
    · have hrel := txStep_same_rel e hr ht htouch
      have hpurge : purgeTx t (e :: es) = e :: purgeTx t es := by
        simp [purgeTx, htouch]
      rw [hpurge]
      show (txRun (txStep s e) es).router
          = (txRun (txStep s' e) (purgeTx t es)).router
      exact ih (txStep s e) (txStep s' e) hrel.1 hrel.2 hnc'

/-! ## Codec lemmas -/

/-- Every recognized command is a non-empty newline-free byte sequence. -/
theorem stompCommands_facts : ∀ c ∈ stompCommands, c ≠ [] ∧ '\n' ∉ c := by
  decide

/-- Escaping one character never produces a newline or a colon. -/
theorem escapeChar_safe (c : Char) :
    '\n' ∉ escapeChar c ∧ ':' ∉ escapeChar c := by
  unfold escapeChar
  split_ifs with h1 h2 h3 h4
  · decide
  · decide
  · decide
  · decide
  · constructor
    · simp only [List.mem_singleton]
      exact fun he => h2 he.symm
    · simp only [List.mem_singleton]
      exact fun he => h3 he.symm

/-- An escaped header name or value contains no newline. -/
theorem escape_no_newline (s : List Char) : '\n' ∉ escape s := by
  induction s with
  | nil => simp [escape]
  | cons c cs ih =>
    simp only [escape, List.mem_append]
    exact fun h => h.elim (fun hm => (escapeChar_safe c).1 hm) ih

/-- An escaped header name or value contains no colon. -/
theorem escape_no_colon (s : List Char) : ':' ∉ escape s := by
  induction s with
  | nil => simp [escape]
  | cons c cs ih =>
    simp only [escape, List.mem_append]
    exact fun h => h.elim (fun hm => (escapeChar_safe c).2 hm) ih

/-- Unescaping undoes the escaping of one character at the front. -/
theorem unescape_escapeChar (c : Char) (rest : List Char) :
    unescape (escapeChar c ++ rest) = (unescape rest).map (fun l => c :: l) := by
  unfold escapeChar
  split_ifs with h1 h2 h3 h4
  · subst h1
    simp [unescape, unescapeChar]
  · subst h2
    simp [unescape, unescapeChar]
  · subst h3
    simp [unescape, unescapeChar]
  · subst h4
    simp [unescape, unescapeChar]
  · show unescape (c :: rest) = (unescape rest).map (fun l => c :: l)
    unfold unescape
    rw [if_neg h1]
    exact congrArg _ (unescape.eq_def rest)

/-- Unescaping undoes escaping. -/
theorem unescape_escape (s : List Char) : unescape (escape s) = some s := by
  induction s with
  | nil => rfl
  | cons c cs ih =>
    show unescape (escapeChar c ++ escape cs) = some (c :: cs)
    rw [unescape_escapeChar, ih]
    rfl

/-- Splitting at the first colon of `a ++ ':' :: ys` returns `(a, ys)` when
`a` is colon-free. -/
theorem splitAtColon_append {a : List Char} (ys : List Char)
    (h : ':' ∉ a) : splitAtColon (a ++ ':' :: ys) = some (a, ys) := by
  induction a with
  | nil => simp [splitAtColon]
  | cons x xs ih =>
    have hx : x ≠ ':' := fun he => h (he ▸ List.mem_cons_self x xs)
    have hxs : ':' ∉ xs := fun hm => h (List.mem_cons_of_mem x hm)
    simp only [List.cons_append, splitAtColon]
    rw [if_neg hx]
    simp only [List.append_eq]
    rw [ih hxs]

/-- Parsing an encoded header line recovers the header. -/
theorem parseRawHeader_enc (k v : List Char) :
    parseRawHeader (escape k ++ ':' :: escape v) = some (k, v) := by
  unfold parseRawHeader
  rw [splitAtColon_append (escape v) (escape_no_colon k)]
  simp [unescape_escape]

/-- Parsing the encoded header lines recovers the headers, in order. -/
theorem parseRawHeaders_enc (headers : List (List Char × List Char)) :
    parseRawHeaders
        (headers.map (fun kv => escape kv.1 ++ ':' :: escape kv.2))
      = some headers := by
  induction headers with
  | nil => rfl
  | cons kv rest ih =>
    simp only [List.map_cons, parseRawHeaders]
    rw [parseRawHeader_enc, ih]

/-- The encoded head lines are non-empty and newline-free. -/
theorem headLines_wf (cmd : List Char)
    (headers : List (List Char × List Char)) (hc : cmd ≠ [])
    (hn : '\n' ∉ cmd) :
    ∀ l ∈ headLines cmd headers, l ≠ [] ∧ '\n' ∉ l := by
  intro l hl
  simp only [headLines, List.mem_cons, List.mem_map] at hl
  rcases hl with hl | ⟨kv, -, hl⟩
  · subst hl
    exact ⟨hc, hn⟩
  · subst hl
    refine ⟨by simp, ?_⟩
    simp only [List.mem_append, List.mem_cons]
    rintro (hm | hm | hm)
    · exact escape_no_newline kv.1 hm
    · exact absurd hm (by decide)
    · exact escape_no_newline kv.2 hm

/-- A budgeted line read succeeds on a newline-free line within budget. -/
theorem takeLineB_append_ok {s : List Char} (r : List Char) {b : Nat}
    (hnl : '\n' ∉ s) (hlen : s.length < b) :
    takeLineB b (s ++ '\n' :: r) = .ok (s, r, b - (s.length + 1)) := by
  induction s generalizing b with
  | nil =>
    cases b with
    | zero => simp at hlen
    | succ b => simp [takeLineB]
  | cons c cs ih =>
    have hc : c ≠ '\n' := fun he => hnl (he ▸ List.mem_cons_self c cs)
    have hcs : '\n' ∉ cs := fun hm => hnl (List.mem_cons_of_mem c hm)
    cases b with
    | zero => simp at hlen
    | succ b =>
      have hlen' : cs.length < b := by
        simp only [List.length_cons] at hlen
        omega
      have harith : b - (cs.length + 1) = b + 1 - ((c :: cs).length + 1) := by
        simp only [List.length_cons]
        omega
      simp only [List.cons_append, takeLineB, if_neg hc, List.append_eq,
        ih hcs hlen']
      rw [← harith]

/-- With a line at least as long as the budget, the budget runs out with
input still pending, and the read fails with `frameTooLarge` whatever
follows. -/
theorem takeLineB_exhaust {s : List Char} (tail : List Char) {b : Nat}
    (hnl : '\n' ∉ s) (hble : b ≤ s.length)
    (hlt : b < s.length + tail.length) :
    takeLineB b (s ++ tail) = .error .frameTooLarge := by
  induction s generalizing b with
  | nil =>
    have hb : b = 0 := Nat.le_zero.mp hble
    subst hb
    cases tail with
    | nil => simp at hlt
    | cons c tl => simp [takeLineB]
  | cons c cs ih =>
    have hc : c ≠ '\n' := fun he => hnl (he ▸ List.mem_cons_self c cs)
    have hcs : '\n' ∉ cs := fun hm => hnl (List.mem_cons_of_mem c hm)
    cases b with
    | zero => simp [takeLineB]
    | succ b =>
      have h1 : b ≤ cs.length := by
        simp only [List.length_cons] at hble
        omega
      have h2 : b < cs.length + tail.length := by
        simp only [List.length_cons] at hlt
        omega
      simp only [List.cons_append, takeLineB, if_neg hc, List.append_eq,
        ih hcs h1 h2]

/-- Collecting an encoded head within budget returns its lines and the
remainder after the blank line. -/
theorem collect_append_ok {lines : List (List Char)} (rest : List Char)
    {b : Nat} (hwf : ∀ l ∈ lines, l ≠ [] ∧ '\n' ∉ l)
    (hb : headBytes lines ≤ b) :
    collectRawLines b (linesFlat lines ++ '\n' :: rest) = .ok (lines, rest) := by
  induction lines generalizing b with
  | nil =>
    cases b with
    | zero => simp [headBytes, linesFlat] at hb
    | succ b =>
      rw [collectRawLines_eq]
      simp [linesFlat, takeLineB]
  | cons l ls ih =>
    obtain ⟨hlne, hlnl⟩ := hwf l (List.mem_cons_self l ls)
    have hwf' : ∀ x ∈ ls, x ≠ [] ∧ '\n' ∉ x := fun x hx =>
      hwf x (List.mem_cons_of_mem l hx)
    have hshape : linesFlat (l :: ls) ++ '\n' :: rest
        = l ++ '\n' :: (linesFlat ls ++ '\n' :: rest) := by
      simp [linesFlat]
    have hlen : l.length < b := by
      simp [headBytes, linesFlat] at hb
      omega
    have hb' : headBytes ls ≤ b - (l.length + 1) := by
      simp [headBytes, linesFlat] at hb ⊢
      omega
    rw [hshape, collectRawLines_eq, takeLineB_append_ok _ hlnl hlen]
    simp [hlne, ih hwf' hb']

/-- An encoded head larger than the budget fails with `frameTooLarge`, and
the failure is decided by the first budget-plus-one bytes: any
continuation after them gives the same failure. -/
theorem collect_take_tooLarge {lines : List (List Char)} (rest : List Char)
    {b : Nat} (hwf : ∀ l ∈ lines, l ≠ [] ∧ '\n' ∉ l)
    (hb : b < headBytes lines) (extra : List Char) :
    collectRawLines b
        ((linesFlat lines ++ '\n' :: rest).take (b + 1) ++ extra)
      = .error .frameTooLarge := by
  induction lines generalizing b extra with
  | nil =>
    have hb0 : b = 0 := by
      simp [headBytes, linesFlat] at hb
      omega
    subst hb0
    rw [collectRawLines_eq]
    simp [linesFlat, takeLineB]
  | cons l ls ih =>
    obtain ⟨hlne, hlnl⟩ := hwf l (List.mem_cons_self l ls)
    have hwf' : ∀ x ∈ ls, x ≠ [] ∧ '\n' ∉ x := fun x hx =>
      hwf x (List.mem_cons_of_mem l hx)
    have hshape : linesFlat (l :: ls) ++ '\n' :: rest
        = l ++ '\n' :: (linesFlat ls ++ '\n' :: rest) := by
      simp [linesFlat]
    rw [hshape]
    by_cases hcmp : b < l.length
    · -- the budget is exhausted inside the first line
      have htake : (l ++ '\n' :: (linesFlat ls ++ '\n' :: rest)).take (b + 1)
          = l.take (b + 1) := by
        rw [List.take_append_eq_append_take]
        have : b + 1 - l.length = 0 := by omega
        simp [this]
      rw [htake, collectRawLines_eq]
      have hs1 : '\n' ∉ l.take (b + 1) := fun hm => hlnl (List.mem_of_mem_take hm)
      have hs2 : b ≤ (l.take (b + 1)).length := by
        simp
        omega
      have hs3 : b < (l.take (b + 1)).length + extra.length := by
        simp
        omega
      rw [takeLineB_exhaust extra hs1 hs2 hs3]
    · by_cases heq : b = l.length
      · -- the budget runs out exactly at the first line's newline
        subst heq
        have htake : (l ++ '\n' :: (linesFlat ls ++ '\n' :: rest)).take
              (l.length + 1) = l ++ ['\n'] := by
          rw [List.take_append_eq_append_take]
          simp
        rw [htake, List.append_assoc, collectRawLines_eq]
        have hs3 : l.length < l.length + (['\n'] ++ extra).length := by
          simp
        rw [takeLineB_exhaust (['\n'] ++ extra) hlnl (Nat.le_refl _) hs3]
      · -- the first line fits: recurse into the remaining head
        have hlt : l.length < b := by omega
        have hb' : b - (l.length + 1) < headBytes ls := by
          simp [headBytes, linesFlat] at hb ⊢
          omega
        have htake : (l ++ '\n' :: (linesFlat ls ++ '\n' :: rest)).take (b + 1)
            = l ++ '\n' :: ((linesFlat ls ++ '\n' :: rest).take
                (b - (l.length + 1) + 1)) := by
          rw [List.take_append_eq_append_take]
          have h1 : l.take (b + 1) = l := List.take_of_length_le (by omega)
          have h2 : b + 1 - l.length = (b - (l.length + 1) + 1) + 1 := by omega
          rw [h1, h2, List.take_succ_cons]
      
        rw [htake, List.append_assoc, List.cons_append, collectRawLines_eq,
          takeLineB_append_ok _ hlnl hlt]
        simp only [if_neg hlne]
        rw [ih hwf' hb' extra]

/-- An encoded head larger than the budget fails with `frameTooLarge`. -/
theorem collect_tooLarge {lines : List (List Char)} (rest : List Char)
    {b : Nat} (hwf : ∀ l ∈ lines, l ≠ [] ∧ '\n' ∉ l)
    (hb : b < headBytes lines) :
    collectRawLines b (linesFlat lines ++ '\n' :: rest)
      = .error .frameTooLarge := by
  have h := collect_take_tooLarge rest hwf hb
    ((linesFlat lines ++ '\n' :: rest).drop (b + 1))
  rwa [List.take_append_drop] at h

/-- Reading a NUL-free body followed by the NUL terminator succeeds within
budget. -/
theorem takeBodyB_append_ok {body : List Char} (r : List Char) {b : Nat}
    (hnn : nulChar ∉ body) (hlen : body.length ≤ b) :
    takeBodyB b (body ++ nulChar :: r) = .ok (body, r) := by
  induction body generalizing b with
  | nil =>
    cases b with
    | zero => simp [takeBodyB]
    | succ b => simp [takeBodyB]
  | cons c cs ih =>
    have hc : c ≠ nulChar := fun he => hnn (he ▸ List.mem_cons_self c cs)
    have hcs : nulChar ∉ cs := fun hm => hnn (List.mem_cons_of_mem c hm)
    cases b with
    | zero => simp at hlen
    | succ b =>
      have hlen' : cs.length ≤ b := by
        simp only [List.length_cons] at hlen
        omega
      simp only [List.cons_append, takeBodyB, if_neg hc, List.append_eq,
        ih hcs hlen']

/-- A successful NUL-terminated body read decomposes the input. -/
theorem takeBodyB_ok_inv {b : Nat} {i body r : List Char}
    (h : takeBodyB b i = .ok (body, r)) :
    nulChar ∉ body ∧ i = body ++ nulChar :: r := by
  induction i generalizing b body r with
  | nil => simp [takeBodyB] at h
  | cons c cs ih =>
    by_cases hc : c = nulChar
    · subst hc
      cases b with
      | zero =>
        simp [takeBodyB] at h
        obtain ⟨hb, hr⟩ := h
        subst hb
        subst hr
        simp
      | succ b =>
        simp [takeBodyB] at h
        obtain ⟨hb, hr⟩ := h
        subst hb
        subst hr
        simp
    · cases b with
      | zero => simp [takeBodyB, if_neg hc] at h
      | succ b =>
        simp only [takeBodyB, if_neg hc] at h
        cases htb : takeBodyB b cs with
        | error e => rw [htb] at h; simp at h
        | ok p =>
          obtain ⟨l, r0⟩ := p
          rw [htb] at h
          simp at h
          obtain ⟨hbody, hr⟩ := h
          obtain ⟨hnn, hdec⟩ := ih htb
          subst hbody
          subst hr
          constructor
          · intro hm
            rcases List.mem_cons.mp hm with hm | hm
            · exact hc hm.symm
            · exact hnn hm
          · simp [hdec]

/-- A body whose first budget-plus-one bytes are NUL-free overruns the
budget: the read fails with `frameTooLarge` whatever follows. -/
theorem takeBodyB_pre_tooLarge {pre : List Char} (tail : List Char) {b : Nat}
    (hnn : nulChar ∉ pre) (hlen : b < pre.length) :
    takeBodyB b (pre ++ tail) = .error .frameTooLarge := by
  induction pre generalizing b with
  | nil => simp at hlen
  | cons c cs ih =>
    have hc : c ≠ nulChar := fun he => hnn (he ▸ List.mem_cons_self c cs)
    have hcs : nulChar ∉ cs := fun hm => hnn (List.mem_cons_of_mem c hm)
    cases b with
    | zero => simp [takeBodyB, if_neg hc]
    | succ b =>
      have hlen' : b < cs.length := by
        simp only [List.length_cons] at hlen
        omega
      simp only [List.cons_append, takeBodyB, if_neg hc, List.append_eq,
        ih hcs hlen']

/-- Taking exactly the length of a prefix returns that prefix. -/
theorem takeExact_append (l r : List Char) :
    takeExact l.length (l ++ r) = some (l, r) := by
  induction l with
  | nil => simp [takeExact]
  | cons c cs ih => simp [takeExact, ih]

/-- A successful exact take decomposes the input. -/
theorem takeExact_ok_inv {n : Nat} {i l r : List Char}
    (h : takeExact n i = some (l, r)) : l.length = n ∧ i = l ++ r := by
  induction n generalizing i l r with
  | zero =>
    simp [takeExact] at h
    obtain ⟨h1, h2⟩ := h
    subst h1
    subst h2
    simp
  | succ n ih =>
    cases i with
    | nil => simp [takeExact] at h
    | cons c cs =>
      simp only [takeExact] at h
      cases hte : takeExact n cs with
      | none => rw [hte] at h; simp at h
      | some p =>
        obtain ⟨l0, r0⟩ := p
        rw [hte] at h
        simp at h
        obtain ⟨h1, h2⟩ := h
        obtain ⟨ih1, ih2⟩ := ih hte
        subst h1
        subst h2
        simp [ih1, ih2]

/-- One step of `decode` on a stream that does not open with a heartbeat
token. -/
theorem decode_eq_collect (maxH maxB : Nat) (c0 : Char) (X : List Char)
    (hc0 : c0 ≠ '\n') :
    decode maxH maxB (c0 :: X)
      = match collectRawLines maxH (c0 :: X) with
        | .error e => .error e
        | .ok (lines, afterHead) =>
            match lines with
            | [] => .error .malformedFrame
            | cmd :: hdrLines =>
                if cmd ∈ stompCommands then
                  match parseRawHeaders hdrLines with
                  | none => .error .malformedFrame
                  | some headers =>
                      match lookupHeader contentLengthKey headers with
                      | some v =>
                          match parseNatSimple v with
                          | none => .error .malformedFrame
                          | some n =>
                              match decodeBody maxB (some n) afterHead with
                              | .error e => .error e
                              | .ok (body, rest') =>
                                  .ok (.frame ⟨cmd, headers, body⟩, rest')
                      | none =>
                          match decodeBody maxB none afterHead with
                          | .error e => .error e
                          | .ok (body, rest') =>
                              .ok (.frame ⟨cmd, headers, body⟩, rest')
                else .error .malformedFrame := by
  simp only [decode]
  rw [if_neg hc0]

/-- Reading a well-formed encoded head within budget leaves exactly the
body stage. -/
theorem decode_eq_of_head (maxH maxB : Nat) (cmd : List Char)
    (headers : List (List Char × List Char)) (rest : List Char)
    (hcmd : cmd ∈ stompCommands)
    (hbytes : headBytes (headLines cmd headers) ≤ maxH) :
    decode maxH maxB (linesFlat (headLines cmd headers) ++ '\n' :: rest)
      = match lookupHeader contentLengthKey headers with
        | some v =>
            match parseNatSimple v with
            | none => .error .malformedFrame
            | some n =>
                match decodeBody maxB (some n) rest with
                | .error e => .error e
                | .ok (body, rest') => .ok (.frame ⟨cmd, headers, body⟩, rest')
        | none =>
            match decodeBody maxB none rest with
            | .error e => .error e
            | .ok (body, rest') => .ok (.frame ⟨cmd, headers, body⟩, rest') := by
  obtain ⟨hne, hnl⟩ := stompCommands_facts cmd hcmd
  obtain ⟨c0, cs0, hc⟩ := List.exists_cons_of_ne_nil hne
  have hc0 : c0 ≠ '\n' := by
    rw [hc] at hnl
    exact fun he => hnl (he ▸ List.mem_cons_self c0 cs0)
  have hwf := headLines_wf cmd headers hne hnl
  have hcol : collectRawLines maxH
        (linesFlat (headLines cmd headers) ++ '\n' :: rest)
      = .ok (headLines cmd headers, rest) := collect_append_ok rest hwf hbytes
  have hshape : linesFlat (headLines cmd headers) ++ '\n' :: rest
      = c0 :: (cs0 ++ '\n' :: (linesFlat
          (headers.map (fun kv => escape kv.1 ++ ':' :: escape kv.2))
          ++ '\n' :: rest)) := by
    simp [headLines, linesFlat, hc]
  rw [hshape, decode_eq_collect maxH maxB c0 _ hc0, ← hshape, hcol]
  simp [headLines, hcmd, parseRawHeaders_enc]

/-- What a successful frame decode guarantees about the frame: the command
is recognized, and the body is consistent with the declared content length
(or NUL-free when none is declared). -/
theorem decode_ok_frame_inv {maxH maxB : Nat} {input rest : List Char}
    {f : Frame} (h : decode maxH maxB input = .ok (.frame f, rest)) :
    f.command ∈ stompCommands
    ∧ (∀ v, lookupHeader contentLengthKey f.headers = some v →
        ∃ n, parseNatSimple v = some n ∧ f.body.length = n)
    ∧ (lookupHeader contentLengthKey f.headers = none → nulChar ∉ f.body) := by
  obtain ⟨fcmd, fheaders, fbody⟩ := f
  cases input with
  | nil => simp [decode] at h
  | cons c r =>
    by_cases hc : c = '\n'
    · subst hc
      simp [decode] at h
    · rw [decode_eq_collect maxH maxB c r hc] at h
      split at h
      · exact absurd h (by simp)
      · rename_i p hcol
        split at h
        · exact absurd h (by simp)
        · rename_i lines afterHead cmd hdrLines
          split at h
          · rename_i hcmd
            split at h
            · exact absurd h (by simp)
            · rename_i headers hph
              split at h
              · rename_i v hlk
                split at h
                · exact absurd h (by simp)
                · rename_i n hpn
                  split at h
                  · exact absurd h (by simp)
                  · rename_i q body rest0 hdb
                    simp only [Except.ok.injEq, Prod.mk.injEq,
                      Decoded.frame.injEq, Frame.mk.injEq] at h
                    obtain ⟨⟨h1, h2, h3⟩, h4⟩ := h
                    subst h1
                    subst h2
                    subst h3
                    refine ⟨hcmd, fun v' hv' => ?_, fun hnone => ?_⟩
                    · have hv2 : lookupHeader contentLengthKey headers
                          = some v' := hv'
                      rw [hlk] at hv2
                      obtain rfl : v = v' := by simpa using hv2
                      refine ⟨n, hpn, ?_⟩
                      simp only [decodeBody] at hdb
                      split at hdb
                      · exact absurd hdb (by simp)
                      · split at hdb
                        · exact absurd hdb (by simp)
                        · rename_i q2 body0 rest1 hte
                          split at hdb
                          · exact absurd hdb (by simp)
                          · split at hdb
                            · simp only [Except.ok.injEq,
                                Prod.mk.injEq] at hdb
                              obtain ⟨hb0, -⟩ := hdb
                              subst hb0
                              exact (takeExact_ok_inv hte).1
                            · exact absurd hdb (by simp)
                    · have hn2 : lookupHeader contentLengthKey headers
                          = none := hnone
                      rw [hlk] at hn2
                      exact absurd hn2 (by simp)
              · rename_i hlk
                split at h
                · exact absurd h (by simp)
                · rename_i q body rest0 hdb
                  simp only [Except.ok.injEq, Prod.mk.injEq,
                    Decoded.frame.injEq, Frame.mk.injEq] at h
                  obtain ⟨⟨h1, h2, h3⟩, h4⟩ := h
                  subst h1
                  subst h2
                  subst h3
                  refine ⟨hcmd, fun v' hv' => ?_, fun hnone => ?_⟩
                  · have hv2 : lookupHeader contentLengthKey headers
                        = some v' := hv'
                    rw [hlk] at hv2
                    exact absurd hv2 (by simp)
                  · simp only [decodeBody] at hdb
                    exact (takeBodyB_ok_inv hdb).1
          · exact absurd h (by simp)

/-- Re-decoding an encoded frame that satisfies the decode guarantees
yields the frame back, with nothing left over. -/
theorem decode_encode {mh mb : Nat} (f : Frame)
    (hcmd : f.command ∈ stompCommands)
    (hcl : ∀ v, lookupHeader contentLengthKey f.headers = some v →
        ∃ n, parseNatSimple v = some n ∧ f.body.length = n)
    (hnocl : lookupHeader contentLengthKey f.headers = none →
        nulChar ∉ f.body)
    (hmh : encodedHeadBytes f ≤ mh) (hmb : f.body.length ≤ mb) :
    decode mh mb (encode f) = .ok (.frame f, []) := by
  have hhead := decode_eq_of_head mh mb f.command f.headers
    (f.body ++ [nulChar]) hcmd hmh
  have henc : encode f = linesFlat (headLines f.command f.headers)
      ++ '\n' :: (f.body ++ [nulChar]) := rfl
  rw [henc, hhead]
  cases hlk : lookupHeader contentLengthKey f.headers with
  | some v =>
    obtain ⟨n, hpn, hlen⟩ := hcl v hlk
    dsimp only
    rw [hpn]
    simp only [decodeBody]
    rw [if_neg (by omega : ¬ mb < n), ← hlen, takeExact_append]
    simp
  | none =>
    have hnn := hnocl hlk
    dsimp only
    simp only [decodeBody]
    have hb : takeBodyB mb (f.body ++ [nulChar]) = .ok (f.body, []) :=
      takeBodyB_append_ok [] hnn hmb
    rw [hb]

/-! ## Claim theorems -/

/-- C1: for every Server, a zero or empty configuration field means the
documented default is used: an empty Addr means the server listens on
":61613", a zero MaxHeaderBytes means at most 4096 header bytes, a zero
MaxBodyBytes means at most 1,048,576 body bytes, and a zero HeartBeat
means a preferred heart-beat interval of 60 seconds. -/
theorem zero_config_uses_defaults (s : Server) :
    (s.Addr = "" → effectiveAddr s = ":61613")
    ∧ (s.MaxHeaderBytes = 0 → effectiveMaxHeaderBytes s = 4096)
    ∧ (s.MaxBodyBytes = 0 → effectiveMaxBodyBytes s = 1048576)
    ∧ (s.HeartBeat = 0 → effectiveHeartBeat s = 60 * timeSecond)
    ∧ (∀ (L E R : Type) (listen : String → Except E L) (proc : Server → L → R),
        s.ListenAndServe listen proc =
          match listen (effectiveAddr s) with
          | .error e => .error e
          | .ok l => .ok (proc s l)) := by
  refine ⟨fun h => ?_, fun h => ?_, fun h => ?_, fun h => ?_,
    fun L E R listen proc => rfl⟩
  · unfold effectiveAddr
    rw [if_pos h]
    rfl
  · unfold effectiveMaxHeaderBytes
    rw [if_pos h]
    decide
  · unfold effectiveMaxBodyBytes
    rw [if_pos h]
    decide
  · unfold effectiveHeartBeat
    rw [if_pos h]
    rfl

/-- Witness for `zero_config_uses_defaults` at the zero-valued server. -/
theorem zero_config_uses_defaults_witness :
    effectiveAddr zeroServer = ":61613"
    ∧ effectiveMaxHeaderBytes zeroServer = 4096
    ∧ effectiveMaxBodyBytes zeroServer = 1048576
    ∧ effectiveHeartBeat zeroServer = 60 * timeSecond :=
  ⟨(zero_config_uses_defaults zeroServer).1 rfl,
   (zero_config_uses_defaults zeroServer).2.1 rfl,
   (zero_config_uses_defaults zeroServer).2.2.1 rfl,
   (zero_config_uses_defaults zeroServer).2.2.2.1 rfl⟩

/-- C2: a destination is of queue kind if and only if its name begins with
the queue prefix "/queue"; every destination whose name does not begin
with "/queue" is of topic kind. -/
theorem destination_kind_rule (name : String) :
    (destinationKind name = DestinationKind.queue
      ↔ "/queue".isPrefixOf name = true)
    ∧ (destinationKind name = DestinationKind.topic
      ↔ ¬ "/queue".isPrefixOf name = true) := by
  unfold destinationKind QueuePrefix
  by_cases h : "/queue".isPrefixOf name = true <;> simp [h]

/-- C4: a listen failure is returned by `Server.ListenAndServe`, and a
failure of the accept loop is returned by `Server.Serve` while the
connections established before the failure are exactly preserved
(independent of the failure and of any later events). -/
theorem accept_loop_failure_reported {C E L R : Type} :
    (∀ (listen : String → Except E L) (proc : Server → L → R) (s : Server)
        (e : E), listen (effectiveAddr s) = .error e →
        s.ListenAndServe listen proc = .error e)
    ∧ (∀ (s : Server) (good : List C) (e : E)
        (more : List (AcceptEvent C E)),
        s.Serve (fun _ evs => serveLoop evs)
            (good.map AcceptEvent.conn ++ AcceptEvent.fail e :: more)
          = (good, some e)) := by
  constructor
  · intro listen proc s e h
    unfold effectiveAddr at h
    simp only [Server.ListenAndServe]
    rw [h]
  · intro s good e more
    show serveLoop (good.map AcceptEvent.conn ++ AcceptEvent.fail e :: more)
        = (good, some e)
    induction good with
    | nil => simp [serveLoop]
    | cons c cs ih => simp [serveLoop, ih]

/-- Witness for `accept_loop_failure_reported` at concrete instances. -/
theorem accept_loop_failure_reported_witness :
    zeroServer.ListenAndServe (fun _ => (Except.error 7 : Except Nat Unit))
        (fun _ _ => ()) = Except.error 7
    ∧ zeroServer.Serve (fun _ evs => serveLoop evs)
        ([AcceptEvent.conn 1, AcceptEvent.fail 9] : List (AcceptEvent Nat Nat))
      = ([1], some 9) :=
  ⟨(accept_loop_failure_reported (C := Nat)).1 _ _ zeroServer 7 rfl,
   (accept_loop_failure_reported (L := Unit) (R := Unit)).2 zeroServer [1] 9 []⟩

/-- C6: in the AwaitingConnect state, if the Authenticator returns false
for the supplied login and passcode, the server sends an ERROR frame and
closes the connection, and a CONNECTED frame is never sent on that
connection. -/
theorem connect_auth_failure (auth : String → String → Bool)
    (login passcode : String) (fs : List ClientFrame)
    (hauth : auth login passcode = false) :
    sessionRun auth .awaitingConnect (.connect login passcode :: fs)
      = (.closed, [.errorFrame])
    ∧ ServerFrame.connectedFrame
        ∉ (sessionRun auth .awaitingConnect (.connect login passcode :: fs)).2 := by
  have hrun : sessionRun auth .awaitingConnect (.connect login passcode :: fs)
      = (.closed, [.errorFrame]) := by
    simp [sessionRun, sessionStep, hauth, sessionRun_closed]
  refine ⟨hrun, ?_⟩
  rw [hrun]
  simp

/-- Witness for `connect_auth_failure`: the spec's scenario with login "a",
passcode "b" and an authenticator that refuses everything. -/
theorem connect_auth_failure_witness :
    sessionRun (fun _ _ => false) .awaitingConnect [.connect "a" "b"]
      = (.closed, [.errorFrame])
    ∧ ServerFrame.connectedFrame
        ∉ (sessionRun (fun _ _ => false) .awaitingConnect
            [.connect "a" "b"]).2 :=
  connect_auth_failure (fun _ _ => false) "a" "b" [] rfl

/-- C7: for every sequence of SENDs to a queue with at least one active
subscription, each accepted message is dispatched immediately and appears
exactly once in the delivery log (the log lists the sent messages in
order), each delivery goes to exactly one registered subscription, and
each message's delivery count equals its send count. -/
theorem queue_send_exactly_once (q : QueueState) (msgs : List Nat)
    (h : q.subs ≠ []) :
    (queueRun q msgs).2.map Prod.fst = msgs
    ∧ (∀ d ∈ (queueRun q msgs).2, d.2 ∈ q.subs)
    ∧ ∀ m, (queueRun q msgs).2.countP (fun d => d.1 = m)
        = msgs.countP (fun x => x = m) := by
  refine ⟨(queueRun_log q msgs h).1, (queueRun_log q msgs h).2, ?_⟩
  intro m
  conv_rhs => rw [← (queueRun_log q msgs h).1]
  rw [List.countP_map]
  rfl

/-- Witness for `queue_send_exactly_once`: two subscriptions, three sends. -/
theorem queue_send_exactly_once_witness :
    (queueRun ⟨[4, 5], 0, []⟩ [10, 11, 12]).2.map Prod.fst = [10, 11, 12]
    ∧ (∀ d ∈ (queueRun ⟨[4, 5], 0, []⟩ [10, 11, 12]).2, d.2 ∈ [4, 5])
    ∧ ∀ m, (queueRun ⟨[4, 5], 0, []⟩ [10, 11, 12]).2.countP (fun d => d.1 = m)
        = [10, 11, 12].countP (fun x => x = m) :=
  queue_send_exactly_once ⟨[4, 5], 0, []⟩ [10, 11, 12] (by decide)

/-- C8: a SEND/ACK/NACK issued under an open transaction has no observable
effect on the Router until COMMIT of that transaction (the router log is
unchanged by the buffered action, and COMMIT applies exactly the buffer);
a trace that never commits the transaction — so in particular one that
ABORTs it — leaves the router exactly as if the transaction's actions had
never been issued. -/
theorem transaction_buffering_observable {A : Type} :
    (∀ (s : BrokerState A) (t : Nat) (a : A) (buf : List A),
        lookupTx t s.txs = some buf →
        (txStep s (TxEvent.act t a)).router = s.router)
    ∧ (∀ (s : BrokerState A) (t : Nat) (buf : List A),
        lookupTx t s.txs = some buf →
        (txStep s (TxEvent.commitTx t)).router = s.router ++ buf)
    ∧ (∀ (s : BrokerState A) (t : Nat) (evs : List (TxEvent A)),
        lookupTx t s.txs = none →
        (∀ e ∈ evs, e ≠ TxEvent.commitTx t) →
        (txRun s evs).router = (txRun s (purgeTx t evs)).router) := by
  refine ⟨fun s t a buf h => by simp [txStep, h],
    fun s t buf h => by simp [txStep, h], fun s t evs hopen hnc => ?_⟩
  exact txRun_purge t evs s s rfl (eraseTx_of_lookup_none hopen) hnc

/-- Witness for `transaction_buffering_observable`: a begun transaction
buffers an action invisibly, commits it, and an aborted trace leaves the
router empty. -/
theorem transaction_buffering_observable_witness :
    (txStep (⟨[], [(3, [20])]⟩ : BrokerState Nat) (TxEvent.act 3 21)).router = []
    ∧ (txStep (⟨[], [(3, [20])]⟩ : BrokerState Nat)
        (TxEvent.commitTx 3)).router = [] ++ [20]
    ∧ (txRun (⟨[], []⟩ : BrokerState Nat)
        [TxEvent.beginTx 3, TxEvent.act 3 20, TxEvent.abortTx 3]).router
      = (txRun (⟨[], []⟩ : BrokerState Nat)
          (purgeTx 3 [TxEvent.beginTx 3, TxEvent.act 3 20,
            TxEvent.abortTx 3])).router :=
  ⟨(transaction_buffering_observable (A := Nat)).1 _ 3 21 [20] rfl,
   (transaction_buffering_observable (A := Nat)).2.1 _ 3 [20] rfl,
   (transaction_buffering_observable (A := Nat)).2.2 _ 3 _ rfl
     (by decide)⟩

/-- C9: a nil `Server.Authenticator` means no authentication is performed
(every CONNECT authenticates regardless of login and passcode), and a nil
`Server.QueueStorage` means the in-memory queue implementation is used. -/
theorem nil_capabilities_use_defaults :
    (∀ login passcode, effectiveAuthenticate none login passcode = true)
    ∧ effectiveQueueStorage none = inMemoryQueueStorage :=
  ⟨fun _ _ => rfl, rfl⟩

/-- C10: the package-level `ListenAndServe addr` behaves identically to
constructing a Server with only Addr set and calling its `ListenAndServe`
method, and the package-level `Serve l` behaves identically to calling
`Serve l` on a zero-valued Server. -/
theorem package_level_functions_equiv {L E R : Type}
    (listen : String → Except E L) (proc : Server → L → R) (addr : String)
    (l : L) :
    ListenAndServe listen proc addr
      = Server.ListenAndServe listen proc { zeroServer with Addr := addr }
    ∧ Serve proc l = Server.Serve proc zeroServer l :=
  ⟨rfl, rfl⟩

/-- C3: a frame whose header section exceeds the configured maximum header
bytes, or whose body or declared content-length exceeds the configured
maximum body bytes, is rejected by `decode` with `frameTooLarge`, and the
failure occurs before the offending section has been fully buffered: an
oversized header section already fails on its first maxH+1 bytes whatever
follows them, an oversized declared content-length fails before any body
byte is read whatever follows the head, and an oversized undeclared body
already fails on its first maxB+1 bytes whatever follows them. -/
theorem frame_too_large_rejected :
    (∀ (maxH maxB : Nat) (cmdLine : List Char) (hdrLines : List (List Char))
        (rest extra : List Char),
        cmdLine ≠ [] → '\n' ∉ cmdLine →
        (∀ l ∈ hdrLines, l ≠ [] ∧ '\n' ∉ l) →
        maxH < headBytes (cmdLine :: hdrLines) →
        decode maxH maxB (linesFlat (cmdLine :: hdrLines) ++ '\n' :: rest)
            = .error .frameTooLarge
        ∧ decode maxH maxB
            ((linesFlat (cmdLine :: hdrLines) ++ '\n' :: rest).take (maxH + 1)
              ++ extra)
            = .error .frameTooLarge)
    ∧ (∀ (maxH maxB : Nat) (cmd : List Char)
        (headers : List (List Char × List Char)) (rest v : List Char)
        (n : Nat),
        cmd ∈ stompCommands →
        headBytes (headLines cmd headers) ≤ maxH →
        lookupHeader contentLengthKey headers = some v →
        parseNatSimple v = some n → maxB < n →
        decode maxH maxB (linesFlat (headLines cmd headers) ++ '\n' :: rest)
          = .error .frameTooLarge)
    ∧ (∀ (maxH maxB : Nat) (cmd : List Char)
        (headers : List (List Char × List Char)) (pre tail : List Char),
        cmd ∈ stompCommands →
        headBytes (headLines cmd headers) ≤ maxH →
        lookupHeader contentLengthKey headers = none →
        nulChar ∉ pre → maxB < pre.length →
        decode maxH maxB
            (linesFlat (headLines cmd headers) ++ '\n' :: (pre ++ tail))
          = .error .frameTooLarge) := by
  refine ⟨?_, ?_, ?_⟩
  · intro maxH maxB cmdLine hdrLines rest extra hcne hcnl hwf0 hbig
    obtain ⟨c0, cs0, hcl⟩ := List.exists_cons_of_ne_nil hcne
    have hc0 : c0 ≠ '\n' := by
      rw [hcl] at hcnl
      exact fun he => hcnl (he ▸ List.mem_cons_self c0 cs0)
    have hwf : ∀ l ∈ cmdLine :: hdrLines, l ≠ [] ∧ '\n' ∉ l := by
      intro l hl
      rcases List.mem_cons.mp hl with hl | hl
      · subst hl
        exact ⟨hcne, hcnl⟩
      · exact hwf0 l hl
    have hinput : linesFlat (cmdLine :: hdrLines) ++ '\n' :: rest
        = c0 :: (cs0 ++ '\n' :: (linesFlat hdrLines ++ '\n' :: rest)) := by
      simp [linesFlat, hcl]
    constructor
    · rw [hinput, decode_eq_collect maxH maxB c0 _ hc0, ← hinput,
        collect_tooLarge rest hwf hbig]
    · have htk := collect_take_tooLarge rest hwf hbig extra
      have hsh : (linesFlat (cmdLine :: hdrLines)
              ++ '\n' :: rest).take (maxH + 1) ++ extra
          = c0 :: ((cs0 ++ '\n' :: (linesFlat hdrLines
              ++ '\n' :: rest)).take maxH ++ extra) := by
        rw [hinput, List.take_succ_cons, List.cons_append]
      rw [hsh, decode_eq_collect maxH maxB c0 _ hc0, ← hsh, htk]
  · intro maxH maxB cmd headers rest v n hcmd hbytes hlk hpn hbig
    rw [decode_eq_of_head maxH maxB cmd headers rest hcmd hbytes, hlk]
    dsimp only
    rw [hpn]
    dsimp only
    simp only [decodeBody]
    rw [if_pos hbig]
  · intro maxH maxB cmd headers pre tail hcmd hbytes hlk hnn hbig
    rw [decode_eq_of_head maxH maxB cmd headers (pre ++ tail) hcmd hbytes,
      hlk]
    dsimp only
    simp only [decodeBody]
    rw [takeBodyB_pre_tooLarge tail hnn hbig]

/-- Witness for `frame_too_large_rejected` at concrete inputs: a header
section of 6 bytes against a 3-byte ceiling, a declared content-length of
99 against an 8-byte ceiling, and a 3-byte undeclared body against a
2-byte ceiling. -/
theorem frame_too_large_rejected_witness :
    (decode 3 8 (linesFlat (("SEND".toList) :: []) ++ '\n' :: [])
        = .error .frameTooLarge
      ∧ decode 3 8 ((linesFlat (("SEND".toList) :: [])
            ++ '\n' :: []).take (3 + 1) ++ [])
        = .error .frameTooLarge)
    ∧ (decode 64 8 (linesFlat (headLines "SEND".toList
          [(contentLengthKey, "99".toList)]) ++ '\n' :: [])
        = .error .frameTooLarge)
    ∧ (decode 64 2 (linesFlat (headLines "SEND".toList [])
          ++ '\n' :: ("abc".toList ++ []))
        = .error .frameTooLarge) := by
  refine ⟨?_, ?_, ?_⟩
  · exact frame_too_large_rejected.1 3 8 "SEND".toList [] [] []
      (by decide) (by decide) (by simp) (by decide)
  · exact frame_too_large_rejected.2.1 64 8 "SEND".toList
      [(contentLengthKey, "99".toList)] [] "99".toList 99
      (by decide) (by decide) (by decide) (by decide) (by decide)
  · exact frame_too_large_rejected.2.2 64 2 "SEND".toList [] "abc".toList []
      (by decide) (by decide) (by decide) (by decide) (by decide)

/-- C5: for every well-formed input byte stream — one from which `decode`
reads a frame — encoding the decoded frame and decoding the result yields
an equivalent frame: same command, same header set with insertion order
preserved, same body (with ceilings that accommodate the re-encoded
frame, whose escaped header section may differ in size from the
original's). -/
theorem encode_decode_roundtrip (maxH maxB mh mb : Nat)
    (input rest : List Char) (f : Frame)
    (hdec : decode maxH maxB input = .ok (.frame f, rest))
    (hmh : encodedHeadBytes f ≤ mh) (hmb : f.body.length ≤ mb) :
    decode mh mb (encode f) = .ok (.frame f, []) := by
  obtain ⟨hcmd, hcl, hnocl⟩ := decode_ok_frame_inv hdec
  exact decode_encode f hcmd hcl hnocl hmh hmb

/-- Witness for `encode_decode_roundtrip`: a SEND frame with one header
and body "hi" decodes, and decoding its re-encoding returns the same
frame. -/
theorem encode_decode_roundtrip_witness :
    decode 64 64 ("SEND\nfoo:bar\n\nhi".toList ++ [nulChar])
      = .ok (.frame ⟨"SEND".toList, [("foo".toList, "bar".toList)],
          "hi".toList⟩, [])
    ∧ decode 64 64 (encode ⟨"SEND".toList,
          [("foo".toList, "bar".toList)], "hi".toList⟩)
      = .ok (.frame ⟨"SEND".toList, [("foo".toList, "bar".toList)],
          "hi".toList⟩, []) := by
  constructor
  · rfl
  · exact encode_decode_roundtrip 64 64 64 64
      ("SEND\nfoo:bar\n\nhi".toList ++ [nulChar]) []
      ⟨"SEND".toList, [("foo".toList, "bar".toList)], "hi".toList⟩
      (by rfl) (by decide) (by decide)

end Stomp
